import Mathlib

/-!
Shallow embedding of the DocDB document-key encoding layer
(`src/yb/docdb/doc_key.cc`): DocKey / SubDocKey construction, encoding,
decoding, comparison, prefix utilities and the bloom-filter key projection.

Byte buffers (`KeyBytes`, `rocksdb::Slice`) are modelled as `List Byte`
with `Byte := Fin 256`; an output buffer is built by list append and a
consuming read cursor is the remaining suffix returned next to each
decode result.  Machine integers: the 16-bit `DocKeyHash` is `Fin 65536`.
Fallible decoding returns an `Except`-style status paired with the
remaining slice (the C++ advances the slice in place even on failure).
-/

namespace DocDb

abbrev Byte := Fin 256

/-- `ValueType` discriminant bytes used by `doc_key.cc`
(values as documented in the encoding comments of the source:
`!` group end, `#` hybrid time, `$` string, `H` 16-bit hash, `\xff` max). -/
def kGroupEnd : Byte := 0x21

def kHybridTime : Byte := 0x23

def kString : Byte := 0x24

def kUInt16Hash : Byte := 0x48

def kIntentPrefix : Byte := 0x69

def kMaxByte : Byte := 0xff

/-- memcmp-style three-way lexicographic comparison of byte strings,
a shorter string that is a prefix of a longer one sorting first. -/
def byteListCompare : List Byte → List Byte → Ordering
  | [], [] => .eq
  | [], _ :: _ => .lt
  | _ :: _, [] => .gt
  | a :: as, b :: bs => (compare a.val b.val).then (byteListCompare as bs)

/-- Modelled from the spec: `util::CompareVectors` (compare_util.h is not
part of the sources given) — element-wise three-way comparison by each
element's own order, then by length. -/
def compareVectors (cmp : α → α → Ordering) : List α → List α → Ordering
  | [], [] => .eq
  | [], _ :: _ => .lt
  | _ :: _, [] => .gt
  | a :: as, b :: bs => (cmp a b).then (compareVectors cmp as bs)

/-- Status categories produced by the decode paths of `doc_key.cc`.
`UndefinedBehaviorRead` is not a C++ `Status`: it marks the embedding's
outcome for a read past the end of the input buffer (undefined behavior
in the source). -/
inductive ErrorCode
  | Corruption
  | InvalidArgument
  | UndefinedBehaviorRead
deriving DecidableEq, Repr

structure DecodeError where
  code : ErrorCode
  msg : String
deriving DecidableEq, Repr

/-- Modelled from the spec: the external primitive-value codec
(`primitive_value.cc` / `value_type.h` are not part of the sources
given).  The spec's contract: an opaque, totally ordered typed value,
encoded as a leading type tag plus payload such that byte order of the
encoding is monotonic with the value's own total order, and decodable by
consuming exactly one component from the front of the cursor.  One
value flavor suffices for this layer: zero-escaped strings (tag `$`, as
shown in the source's own encoding comments, e.g. `$aa\x00\x00`). -/
inductive PrimitiveValue
  | PVString (s : List Byte)
deriving DecidableEq, Repr

/-- Zero-escaped string payload: `0x00` in the content becomes
`0x00 0x01`, and the payload ends with the terminator `0x00 0x00`. -/
def zeroEncode : List Byte → List Byte
  | [] => [0, 0]
  | b :: rest => if b = (0 : Byte) then 0 :: 1 :: zeroEncode rest else b :: zeroEncode rest

/-- Inverse of `zeroEncode`: read a zero-escaped payload off the front of
a byte string, returning the decoded content and the remaining bytes, or
`none` on a malformed / truncated payload. -/
def zeroDecode : List Byte → Option (List Byte × List Byte)
  | [] => none
  | b :: rest =>
    if b = (0 : Byte) then
      match rest with
      | [] => none
      | c :: rest2 =>
        if c = (0 : Byte) then some ([], rest2)
        else if c = (1 : Byte) then
          match zeroDecode rest2 with
          | some (s, r) => some ((0 : Byte) :: s, r)
          | none => none
        else none
    else
      match zeroDecode rest with
      | some (s, r) => some (b :: s, r)
      | none => none

def byteHi (v : Fin 65536) : Byte := ⟨v.val / 256, by omega⟩

def byteLo (v : Fin 65536) : Byte := ⟨v.val % 256, by omega⟩

/-- `PrimitiveValue::AppendToKey`: type tag, then the order-preserving
payload. -/
def PrimitiveValue.encode : PrimitiveValue → List Byte
  | .PVString s => kString :: zeroEncode s

/-- `PrimitiveValue::CompareTo`: the value's own total order. -/
def PrimitiveValue.cmp : PrimitiveValue → PrimitiveValue → Ordering
  | .PVString a, .PVString b => byteListCompare a b

/-- `IsPrimitiveValueType`: tags acceptable where a primitive value may
start (`GroupEnd`, `HybridTime`, `MaxByte` and `IntentPrefix` are not).
`DocKey::DoDecode`'s first-tag check runs before its `UInt16Hash`
branch, so the source's predicate necessarily accepts the `UInt16Hash`
tag as well. -/
def IsPrimitiveValueType (b : Byte) : Bool := b = kString || b = kUInt16Hash

/-- `PrimitiveValue::DecodeKey` / `DecodeFromKey`: consume one encoded
primitive component from the front of the slice.  Returns the decode
status together with the remaining slice (the tag byte is consumed
before the payload is examined). -/
def PrimitiveValue.DecodeKey :
    List Byte → Except DecodeError PrimitiveValue × List Byte
  | [] => (.error ⟨.Corruption, "Cannot decode a value type from an empty slice"⟩, [])
  | t :: rest =>
    if t = kString then
      match zeroDecode rest with
      | some (s, r) => (.ok (.PVString s), r)
      | none => (.error ⟨.Corruption, "Error decoding a string value"⟩, rest)
    else (.error ⟨.Corruption, "Cannot decode a primitive value of this type"⟩, t :: rest)

/-- A successful `zeroDecode` strictly shrinks the slice. -/
theorem zeroDecode_length {l : List Byte} :
    ∀ {s r : List Byte}, zeroDecode l = some (s, r) → r.length < l.length := by
  induction l using zeroDecode.induct with
  | case1 =>
    intro s r h
    simp [zeroDecode] at h
  | case2 =>
    intro s r h
    simp [zeroDecode] at h
  | case3 rest2 =>
    intro s r h
    simp [zeroDecode] at h
    simp [← h.2]
    omega
  | case4 rest2 s0 r0 hz _ ih =>
    intro s r h
    simp [zeroDecode, hz] at h
    have := ih hz
    simp [← h.2]
    omega
  | case5 rest2 hz =>
    intro s r h
    simp [zeroDecode, hz] at h
  | case6 c rest2 hc hc1 =>
    intro s r h
    simp [zeroDecode, hc, hc1] at h
  | case7 c rest2 hc s0 r0 hz ih =>
    intro s r h
    rw [zeroDecode.eq_def] at h
    simp [hc, hz] at h
    have := ih hz
    simp [← h.2]
    omega
  | case8 c rest2 hc hz =>
    intro s r h
    rw [zeroDecode.eq_def] at h
    simp [hc, hz] at h

/-- A successful `PrimitiveValue.DecodeKey` strictly shrinks the
slice. -/
theorem PrimitiveValue.DecodeKey_ok_length {l r : List Byte} {v : PrimitiveValue}
    (h : PrimitiveValue.DecodeKey l = (.ok v, r)) : r.length < l.length := by
  match l with
  | [] => simp [PrimitiveValue.DecodeKey] at h
  | t :: rest =>
    rw [PrimitiveValue.DecodeKey.eq_def] at h
    simp only [] at h
    split at h
    · split at h
      · rename_i s2 r2 hz
        simp only [Prod.mk.injEq, Except.ok.injEq] at h
        have := zeroDecode_length hz
        simp [← h.2]
        omega
      · simp at h
    · simp at h

/-- `ConsumePrimitiveValuesFromKey`: repeatedly decode one primitive
component until the `GroupEnd` tag closes the run (consuming it); an
empty slice or a non-primitive tag before `GroupEnd` is a corruption
error. -/
def ConsumePrimitiveValuesFromKey (slice : List Byte) :
    Except DecodeError (List PrimitiveValue) × List Byte :=
  match hs : slice with
  | [] => (.error ⟨.Corruption, "Unexpected end of key when decoding document key"⟩, [])
  | b :: rest =>
    if b = kGroupEnd then (.ok [], rest)
    else if IsPrimitiveValueType b then
      match hd : PrimitiveValue.DecodeKey (b :: rest) with
      | (.ok v, rest2) =>
        have : rest2.length < slice.length := by
          rw [hs]
          exact PrimitiveValue.DecodeKey_ok_length hd
        match ConsumePrimitiveValuesFromKey rest2 with
        | (.ok vs, rest3) => (.ok (v :: vs), rest3)
        | (.error e, rest3) => (.error e, rest3)
      | (.error e, rest2) => (.error e, rest2)
    else (.error ⟨.Corruption, "Expected a primitive value type"⟩, b :: rest)
termination_by slice.length

abbrev DocKeyHash := Fin 65536

/-- `DocKey`: partition (hash) + clustering (range) key component.
`hash` is only meaningful when `hash_present` is set (`Clear` resets it
to the sentinel `0xdead`). -/
structure DocKey where
  hash_present : Bool
  hash : DocKeyHash
  hashed_group : List PrimitiveValue
  range_group : List PrimitiveValue
deriving DecidableEq, Repr

/-- `AppendDocKeyItems`: append each item's primitive encoding, then the
`GroupEnd` tag. -/
def AppendDocKeyItems (doc_key_items : List PrimitiveValue) (result : List Byte) : List Byte :=
  result ++ doc_key_items.flatMap PrimitiveValue.encode ++ [kGroupEnd]

/-- `DocKey::AppendTo`: if the hash is present, the `UInt16Hash` tag, the
2-byte big-endian hash and the hashed group; then always the range
group. -/
def DocKey.AppendTo (k : DocKey) (out : List Byte) : List Byte :=
  AppendDocKeyItems k.range_group
    (if k.hash_present then
       AppendDocKeyItems k.hashed_group (out ++ [kUInt16Hash, byteHi k.hash, byteLo k.hash])
     else out)

/-- `DocKey::Encode`. -/
def DocKey.Encode (k : DocKey) : List Byte := k.AppendTo []

/-- `DocKey::HashedComponentsEqual`: hash and hashed group are compared
only when the hash-presence flag is set. -/
def DocKey.HashedComponentsEqual (a b : DocKey) : Bool :=
  a.hash_present == b.hash_present &&
    (!a.hash_present || (a.hash == b.hash && a.hashed_group == b.hashed_group))

/-- `DocKey::operator==`. -/
def DocKey.keyEq (a b : DocKey) : Bool :=
  a.HashedComponentsEqual b && a.range_group == b.range_group

/-- `DocKey::CompareTo`: hash ascending (when present on the left
operand, mirroring the source's use of its own flag after the
`DCHECK`), then the hashed group element-wise, then the range group
element-wise. -/
def DocKey.CompareTo (a b : DocKey) : Ordering :=
  match (if a.hash_present then compare a.hash.val b.hash.val else .eq) with
  | .eq =>
    match compareVectors PrimitiveValue.cmp a.hashed_group b.hashed_group with
    | .eq => compareVectors PrimitiveValue.cmp a.range_group b.range_group
    | o => o
  | o => o

inductive DocKeyPart
  | WHOLE_DOC_KEY
  | HASHED_PART_ONLY
deriving DecidableEq, Repr

/-- `DocKey::DoDecode` (with the `DecodeFromCallback`, i.e. building a
fresh `DocKey` that was first `Clear`-ed: absent hash leaves the
`0xdead` sentinel and an empty hashed group).  Returns the decode status
and the remaining slice.  The source consumes a leading `IntentPrefix`
byte and then dereferences the cursor without re-checking emptiness: on
the one-byte input holding only that prefix this is a read past the end
of the buffer, modelled as `UndefinedBehaviorRead`. -/
def DocKey.DoDecode (slice : List Byte) (part_to_decode : DocKeyPart) :
    Except DecodeError DocKey × List Byte :=
  match slice with
  | [] => (.error ⟨.Corruption, "Document key is empty"⟩, [])
  | b0 :: rest0 =>
    match (if b0 = kIntentPrefix then rest0 else b0 :: rest0) with
    | [] => (.error ⟨.UndefinedBehaviorRead, "Read past the end of the document key buffer"⟩, [])
    | first :: rest1 =>
      if ¬ (IsPrimitiveValueType first || first = kGroupEnd) then
        (.error ⟨.Corruption, "Expected first value type to be primitive or GroupEnd"⟩,
          first :: rest1)
      else if first = kUInt16Hash then
        match rest1 with
        | h1 :: h2 :: rest2 =>
          let hash : DocKeyHash := ⟨h1.val * 256 + h2.val, by
            have := h1.isLt
            have := h2.isLt
            omega⟩
          match ConsumePrimitiveValuesFromKey rest2 with
          | (.ok hashed, rest3) =>
            match part_to_decode with
            | .WHOLE_DOC_KEY =>
              match ConsumePrimitiveValuesFromKey rest3 with
              | (.ok range, rest4) => (.ok ⟨true, hash, hashed, range⟩, rest4)
              | (.error e, rest4) => (.error e, rest4)
            | .HASHED_PART_ONLY => (.ok ⟨true, hash, hashed, []⟩, rest3)
          | (.error e, rest3) => (.error e, rest3)
        | _ =>
          (.error ⟨.Corruption, "Could not decode a 16-bit hash component of a document key"⟩,
            first :: rest1)
      else
        match part_to_decode with
        | .WHOLE_DOC_KEY =>
          match ConsumePrimitiveValuesFromKey (first :: rest1) with
          | (.ok range, rest2) => (.ok ⟨false, ⟨0xdead, by omega⟩, [], range⟩, rest2)
          | (.error e, rest2) => (.error e, rest2)
        | .HASHED_PART_ONLY => (.ok ⟨false, ⟨0xdead, by omega⟩, [], []⟩, first :: rest1)

/-- `DocKey::DecodeFrom` with the default whole-key mode. -/
def DocKey.DecodeFrom (slice : List Byte) : Except DecodeError DocKey × List Byte :=
  DocKey.DoDecode slice .WHOLE_DOC_KEY

/-- `DocKey::FullyDecodeFrom`: decode, then require the cursor to be
fully consumed; leftover bytes (after success or failure) produce an
`InvalidArgument` status. -/
def DocKey.FullyDecodeFrom (slice : List Byte) : Except DecodeError DocKey :=
  match DocKey.DecodeFrom slice with
  | (status, rest) =>
    if rest ≠ [] then
      .error ⟨.InvalidArgument, "Expected all bytes of the slice to be decoded into DocKey"⟩
    else status

/-- `DocKey::EncodedSize`: number of bytes `DoDecode` consumes for the
requested part. -/
def DocKey.EncodedSize (slice : List Byte) (part : DocKeyPart) : Except DecodeError Nat :=
  match DocKey.DoDecode slice part with
  | (.ok _, rest) => .ok (slice.length - rest.length)
  | (.error e, _) => .error e

/-- Modelled from the spec: `DocHybridTime` (the hybrid-time codec is an
external collaborator, not among the sources given).  A timestamp is a
natural number; `none` is the sentinel `DocHybridTime::kInvalid`
("absent"), which the collaborator's total order places above every
valid value. -/
abbrev DocHybridTime := Option Nat

/-- Modelled from the spec: `DocHybridTime::CompareTo`, a total order on
timestamps with the invalid sentinel as the largest element. -/
def DocHybridTime.cmp : DocHybridTime → DocHybridTime → Ordering
  | none, none => .eq
  | none, some _ => .gt
  | some _, none => .lt
  | some a, some b => compare a b

def byteOfNat (n : Nat) : Byte := ⟨n % 256, Nat.mod_lt _ (by omega)⟩

/-- Modelled from the spec: `AppendDocHybridTime` (doc_kv_util is not
among the sources given) — the `HybridTime` tag followed by the encoded
timestamp payload (a fixed 8-byte big-endian rendering here). -/
def AppendDocHybridTime (t : Nat) : List Byte :=
  kHybridTime :: (List.range 8).map (fun i => byteOfNat (t / 256 ^ (7 - i)))

/-- `SubDocKey`: `DocKey` + sub-document path + optional hybrid time. -/
structure SubDocKey where
  doc_key : DocKey
  subkeys : List PrimitiveValue
  doc_ht : DocHybridTime
deriving DecidableEq, Repr

def SubDocKey.has_hybrid_time (k : SubDocKey) : Bool := k.doc_ht.isSome

/-- `SubDocKey::Encode(include_hybrid_time)`: DocKey bytes, each
subkey's primitive encoding in sequence (no enclosing `GroupEnd`),
then — if present and requested — the hybrid-time tag and payload. -/
def SubDocKey.Encode (k : SubDocKey) (include_hybrid_time : Bool) : List Byte :=
  k.doc_key.Encode ++ k.subkeys.flatMap PrimitiveValue.encode ++
    (match k.doc_ht with
     | some t => if include_hybrid_time then AppendDocHybridTime t else []
     | none => [])

/-- `SubDocKey::operator==`. -/
def SubDocKey.keyEq (a b : SubDocKey) : Bool :=
  a.doc_key.keyEq b.doc_key && a.doc_ht == b.doc_ht && a.subkeys == b.subkeys

/-- `SubDocKey::CompareToIgnoreHt`: doc key, then subkeys
element-wise. -/
def SubDocKey.CompareToIgnoreHt (a b : SubDocKey) : Ordering :=
  match a.doc_key.CompareTo b.doc_key with
  | .eq => compareVectors PrimitiveValue.cmp a.subkeys b.subkeys
  | o => o

/-- `SubDocKey::CompareTo`: as `CompareToIgnoreHt`, then the hybrid time
with reversed polarity (`-doc_ht_.CompareTo(other.doc_ht_)`). -/
def SubDocKey.CompareTo (a b : SubDocKey) : Ordering :=
  match a.CompareToIgnoreHt b with
  | .eq => (DocHybridTime.cmp a.doc_ht b.doc_ht).swap
  | o => o

/-- The `std::mismatch`-based leading-run test of
`SubDocKey::StartsWith` (defined for a first range no longer than the
second, which the caller's length conjunct guarantees). -/
def leadingRun : List PrimitiveValue → List PrimitiveValue → Bool
  | [], _ => true
  | _ :: _, [] => false
  | a :: as, b :: bs => a == b && leadingRun as bs

/-- `SubDocKey::StartsWith(prefix)`. -/
def SubDocKey.StartsWith (k : SubDocKey) (prefix_key : SubDocKey) : Bool :=
  k.doc_key.keyEq prefix_key.doc_key &&
    (!prefix_key.has_hybrid_time ||
      (k.doc_ht == prefix_key.doc_ht && prefix_key.subkeys.length == k.subkeys.length)) &&
    decide (prefix_key.subkeys.length ≤ k.subkeys.length) &&
    leadingRun prefix_key.subkeys k.subkeys

/-- `SubDocKey::AdvanceOutOfSubDoc`: encode without the hybrid time and
append the `MaxByte` sentinel tag. -/
def SubDocKey.AdvanceOutOfSubDoc (k : SubDocKey) : List Byte :=
  k.Encode false ++ [kMaxByte]

/-- `HashedComponentsExtractor::Transform`: truncate an encoded key to
`EncodedSize(key, HASHED_PART_ONLY)` bytes.  The source `CHECK_OK`s the
size computation (process abort on failure), modelled as `none`. -/
def HashedComponentsExtractorTransform (key : List Byte) : Option (List Byte) :=
  match DocKey.EncodedSize key .HASHED_PART_ONLY with
  | .ok size => some (key.take size)
  | .error _ => none

/-! ### Ordering and codec lemmas -/

theorem ordThen_assoc (p q r : Ordering) : (p.then q).then r = p.then (q.then r) := by
  cases p <;> rfl

theorem ordThen_eq (o : Ordering) : o.then .eq = o := by
  cases o <;> rfl

@[simp] theorem ordEq_then (o : Ordering) : Ordering.eq.then o = o := rfl

@[simp] theorem ordLt_then (o : Ordering) : Ordering.lt.then o = .lt := rfl

@[simp] theorem ordGt_then (o : Ordering) : Ordering.gt.then o = .gt := rfl

@[simp] theorem byteListCompare_cons (a b : Byte) (as bs : List Byte) :
    byteListCompare (a :: as) (b :: bs) = (compare a.val b.val).then (byteListCompare as bs) :=
  rfl

theorem byteListCompare_self (l : List Byte) : byteListCompare l l = .eq := by
  induction l with
  | nil => rfl
  | cons a as ih =>
    simp [byteListCompare, ih, Nat.compare_eq_eq.mpr rfl]

theorem byteListCompare_eq_iff {a b : List Byte} : byteListCompare a b = .eq ↔ a = b := by
  constructor
  · intro h
    induction a generalizing b with
    | nil => cases b <;> simp_all [byteListCompare]
    | cons x xs ih =>
      cases b with
      | nil => simp [byteListCompare] at h
      | cons y ys =>
        rw [byteListCompare] at h
        cases hc : compare x.val y.val <;> rw [hc] at h <;> simp [Ordering.then] at h
        have hxy : x = y := Fin.ext (Nat.compare_eq_eq.mp hc)
        rw [hxy, ih h]
  · rintro rfl
    exact byteListCompare_self a

theorem zeroEncode_cmp (a : List Byte) :
    ∀ (b x y : List Byte),
      byteListCompare (zeroEncode a ++ x) (zeroEncode b ++ y)
        = (byteListCompare a b).then (byteListCompare x y) := by
  induction a with
  | nil =>
    intro b x y
    cases b with
    | nil => simp [zeroEncode, byteListCompare, Nat.compare_eq_eq.mpr rfl]
    | cons d ds =>
      by_cases hd : d = (0 : Byte)
      · subst hd
        simp [zeroEncode, byteListCompare, Nat.compare_eq_eq.mpr rfl,
          show compare 0 1 = Ordering.lt from Nat.compare_eq_lt.mpr (by omega)]
      · have hdpos : 0 < d.val := by
          rcases Nat.eq_zero_or_pos d.val with h0 | h0
          · exact absurd (Fin.ext h0) hd
          · exact h0
        simp [zeroEncode, hd, byteListCompare,
          show compare 0 d.val = Ordering.lt from Nat.compare_eq_lt.mpr hdpos]
  | cons c cs ih =>
    intro b x y
    cases b with
    | nil =>
      by_cases hc : c = (0 : Byte)
      · subst hc
        simp [zeroEncode, byteListCompare, Nat.compare_eq_eq.mpr rfl,
          show compare 1 0 = Ordering.gt from Nat.compare_eq_gt.mpr (by omega)]
      · have hcpos : 0 < c.val := by
          rcases Nat.eq_zero_or_pos c.val with h0 | h0
          · exact absurd (Fin.ext h0) hc
          · exact h0
        simp [zeroEncode, hc, byteListCompare,
          show compare c.val 0 = Ordering.gt from Nat.compare_eq_gt.mpr hcpos]
    | cons d ds =>
      by_cases hc : c = (0 : Byte) <;> by_cases hd : d = (0 : Byte)
      · subst hc
        subst hd
        simp [zeroEncode, byteListCompare, Nat.compare_eq_eq.mpr rfl, ih ds x y]
      · subst hc
        have hdpos : 0 < d.val := by
          rcases Nat.eq_zero_or_pos d.val with h0 | h0
          · exact absurd (Fin.ext h0) hd
          · exact h0
        simp [zeroEncode, hd, byteListCompare,
          show compare 0 d.val = Ordering.lt from Nat.compare_eq_lt.mpr hdpos]
      · subst hd
        have hcpos : 0 < c.val := by
          rcases Nat.eq_zero_or_pos c.val with h0 | h0
          · exact absurd (Fin.ext h0) hc
          · exact h0
        simp [zeroEncode, hc, byteListCompare,
          show compare c.val 0 = Ordering.gt from Nat.compare_eq_gt.mpr hcpos]
      · simp only [zeroEncode, if_neg hc, if_neg hd, List.cons_append, byteListCompare]
        rw [ih ds x y, ordThen_assoc]

theorem be16_cmp (a b : Fin 65536) (o : Ordering) :
    (compare (byteHi a).val (byteHi b).val).then
        ((compare (byteLo a).val (byteLo b).val).then o)
      = (compare a.val b.val).then o := by
  rcases Nat.lt_trichotomy a.val b.val with h | h | h
  · rw [show compare a.val b.val = Ordering.lt from Nat.compare_eq_lt.mpr h]
    have hd : a.val / 256 < b.val / 256 ∨
        (a.val / 256 = b.val / 256 ∧ a.val % 256 < b.val % 256) := by omega
    rcases hd with hd | ⟨hd, hm⟩
    · rw [show compare (byteHi a).val (byteHi b).val = Ordering.lt from
        Nat.compare_eq_lt.mpr hd]
      rfl
    · rw [show compare (byteHi a).val (byteHi b).val = Ordering.eq from
        Nat.compare_eq_eq.mpr hd]
      rw [show compare (byteLo a).val (byteLo b).val = Ordering.lt from
        Nat.compare_eq_lt.mpr hm]
      rfl
  · have hab : a = b := Fin.ext h
    subst hab
    simp [Nat.compare_eq_eq.mpr rfl]
  · rw [show compare a.val b.val = Ordering.gt from Nat.compare_eq_gt.mpr h]
    have hd : b.val / 256 < a.val / 256 ∨
        (a.val / 256 = b.val / 256 ∧ b.val % 256 < a.val % 256) := by omega
    rcases hd with hd | ⟨hd, hm⟩
    · rw [show compare (byteHi a).val (byteHi b).val = Ordering.gt from
        Nat.compare_eq_gt.mpr hd]
      rfl
    · rw [show compare (byteHi a).val (byteHi b).val = Ordering.eq from
        Nat.compare_eq_eq.mpr hd]
      rw [show compare (byteLo a).val (byteLo b).val = Ordering.gt from
        Nat.compare_eq_gt.mpr hm]
      rfl

/-- The codec's concatenation-compatible order preservation: comparing
two encoded primitives followed by arbitrary suffixes compares the
values first, then the suffixes (the encodings are prefix-free and
order-preserving). -/
theorem encode_cmp (a b : PrimitiveValue) (x y : List Byte) :
    byteListCompare (a.encode ++ x) (b.encode ++ y)
      = (PrimitiveValue.cmp a b).then (byteListCompare x y) := by
  cases a with
  | PVString s =>
    cases b with
    | PVString t =>
      simp only [PrimitiveValue.encode, PrimitiveValue.cmp, List.cons_append,
        byteListCompare_cons, Nat.compare_eq_eq.mpr rfl, ordEq_then]
      exact zeroEncode_cmp s t x y

theorem PrimitiveValue.cmp_self (a : PrimitiveValue) : PrimitiveValue.cmp a a = .eq := by
  cases a with
  | PVString s => exact byteListCompare_self s

theorem compareVectors_self (g : List PrimitiveValue) :
    compareVectors PrimitiveValue.cmp g g = .eq := by
  induction g with
  | nil => rfl
  | cons a as ih => simp [compareVectors, PrimitiveValue.cmp_self, ih]

/-- Every primitive encoding starts with a type tag strictly between
`GroupEnd` and `MaxByte` and distinct from `HybridTime`. -/
theorem encode_head (pv : PrimitiveValue) :
    ∃ t rest, pv.encode = t :: rest ∧ kGroupEnd.val < t.val ∧ t.val < kMaxByte.val ∧
      t ≠ kHybridTime ∧ t ≠ kIntentPrefix ∧ IsPrimitiveValueType t = true := by
  cases pv with
  | PVString s => exact ⟨kString, zeroEncode s, rfl, by decide, by decide, by decide, by decide,
      by decide⟩

/-- Comparing two encoded component groups (items then `GroupEnd`)
followed by arbitrary suffixes compares the groups element-wise first,
then the suffixes. -/
theorem group_cmp (g1 : List PrimitiveValue) :
    ∀ (g2 : List PrimitiveValue) (x y : List Byte),
      byteListCompare ((g1.flatMap PrimitiveValue.encode ++ [kGroupEnd]) ++ x)
          ((g2.flatMap PrimitiveValue.encode ++ [kGroupEnd]) ++ y)
        = (compareVectors PrimitiveValue.cmp g1 g2).then (byteListCompare x y) := by
  induction g1 with
  | nil =>
    intro g2 x y
    cases g2 with
    | nil => simp [byteListCompare, compareVectors, Nat.compare_eq_eq.mpr rfl]
    | cons b bs =>
      cases b with
      | PVString s =>
        simp only [List.flatMap_nil, List.flatMap_cons, List.nil_append, List.cons_append,
          PrimitiveValue.encode, List.append_assoc, byteListCompare_cons, compareVectors]
        rw [show compare kGroupEnd.val kString.val = Ordering.lt from by decide]
        rfl
  | cons a as ih =>
    intro g2 x y
    cases g2 with
    | nil =>
      cases a with
      | PVString s =>
        simp only [List.flatMap_nil, List.flatMap_cons, List.nil_append, List.cons_append,
          PrimitiveValue.encode, List.append_assoc, byteListCompare_cons, compareVectors]
        rw [show compare kString.val kGroupEnd.val = Ordering.gt from by decide]
        rfl
    | cons b bs =>
      have key := encode_cmp a b
        ((as.flatMap PrimitiveValue.encode ++ [kGroupEnd]) ++ x)
        ((bs.flatMap PrimitiveValue.encode ++ [kGroupEnd]) ++ y)
      simp only [List.flatMap_cons, List.append_assoc, List.cons_append] at key ⊢
      rw [show compareVectors PrimitiveValue.cmp (a :: as) (b :: bs)
          = (PrimitiveValue.cmp a b).then (compareVectors PrimitiveValue.cmp as bs) from rfl]
      rw [ordThen_assoc]
      rw [← ih bs x y]
      simp only [List.append_assoc] at key ⊢
      exact key

/-- Closed form of `DocKey::Encode`'s output layout. -/
theorem DocKey.Encode_eq (k : DocKey) :
    k.Encode = (if k.hash_present then
        kUInt16Hash :: byteHi k.hash :: byteLo k.hash ::
          (k.hashed_group.flatMap PrimitiveValue.encode ++ [kGroupEnd])
      else []) ++ (k.range_group.flatMap PrimitiveValue.encode ++ [kGroupEnd]) := by
  unfold DocKey.Encode DocKey.AppendTo AppendDocKeyItems
  cases hk : k.hash_present <;> simp

/-- `DocKey::CompareTo` as a single `Ordering.then` chain. -/
theorem DocKey.CompareTo_then (a b : DocKey) :
    a.CompareTo b
      = (if a.hash_present then compare a.hash.val b.hash.val else Ordering.eq).then
          ((compareVectors PrimitiveValue.cmp a.hashed_group b.hashed_group).then
            (compareVectors PrimitiveValue.cmp a.range_group b.range_group)) := by
  unfold DocKey.CompareTo
  cases hif : (if a.hash_present then compare a.hash.val b.hash.val else Ordering.eq) <;>
    cases hcv : compareVectors PrimitiveValue.cmp a.hashed_group b.hashed_group <;>
      simp

theorem group_cmp_closed (g1 g2 : List PrimitiveValue) :
    byteListCompare (g1.flatMap PrimitiveValue.encode ++ [kGroupEnd])
        (g2.flatMap PrimitiveValue.encode ++ [kGroupEnd])
      = compareVectors PrimitiveValue.cmp g1 g2 := by
  have h := group_cmp g1 g2 [] []
  simpa [ordThen_eq, show byteListCompare [] [] = Ordering.eq from rfl] using h

/-- `DocKey::Encode` layout when the hash is present. -/
theorem DocKey.Encode_hash_true {k : DocKey} (hk : k.hash_present = true) :
    k.Encode = kUInt16Hash :: byteHi k.hash :: byteLo k.hash ::
      ((k.hashed_group.flatMap PrimitiveValue.encode ++ [kGroupEnd]) ++
        (k.range_group.flatMap PrimitiveValue.encode ++ [kGroupEnd])) := by
  rw [DocKey.Encode_eq, hk]
  simp

/-- `DocKey::Encode` layout when the hash is absent. -/
theorem DocKey.Encode_hash_false {k : DocKey} (hk : k.hash_present = false) :
    k.Encode = k.range_group.flatMap PrimitiveValue.encode ++ [kGroupEnd] := by
  rw [DocKey.Encode_eq, hk]
  simp

theorem DocKey.CompareTo_then_true {a : DocKey} (b : DocKey) (h : a.hash_present = true) :
    a.CompareTo b = (compare a.hash.val b.hash.val).then
      ((compareVectors PrimitiveValue.cmp a.hashed_group b.hashed_group).then
        (compareVectors PrimitiveValue.cmp a.range_group b.range_group)) := by
  rw [DocKey.CompareTo_then, h]
  rfl

theorem DocKey.CompareTo_then_false {a : DocKey} (b : DocKey) (h : a.hash_present = false) :
    a.CompareTo b = (compareVectors PrimitiveValue.cmp a.hashed_group b.hashed_group).then
      (compareVectors PrimitiveValue.cmp a.range_group b.range_group) := by
  rw [DocKey.CompareTo_then, h]
  rfl

/-! ### Decode-of-encode lemmas -/

theorem zeroDecode_zeroEncode (s r : List Byte) :
    zeroDecode (zeroEncode s ++ r) = some (s, r) := by
  induction s with
  | nil =>
    rw [show zeroEncode [] ++ r = (0 : Byte) :: (0 : Byte) :: r from rfl]
    rw [zeroDecode]
    simp
  | cons x xs ih =>
    by_cases hx : x = (0 : Byte)
    · subst hx
      rw [show zeroEncode ((0 : Byte) :: xs) ++ r
          = (0 : Byte) :: (1 : Byte) :: (zeroEncode xs ++ r) from by simp [zeroEncode]]
      rw [zeroDecode]
      simp [ih]
    · rw [show zeroEncode (x :: xs) ++ r = x :: (zeroEncode xs ++ r) from by
        simp [zeroEncode, hx]]
      rw [zeroDecode.eq_def]
      simp [hx, ih]

theorem DecodeKey_encode (pv : PrimitiveValue) (r : List Byte) :
    PrimitiveValue.DecodeKey (pv.encode ++ r) = (.ok pv, r) := by
  cases pv with
  | PVString s =>
    rw [show PrimitiveValue.encode (.PVString s) ++ r = kString :: (zeroEncode s ++ r) from rfl]
    rw [PrimitiveValue.DecodeKey.eq_def]
    simp [zeroDecode_zeroEncode]

theorem consume_groupEnd (r : List Byte) :
    ConsumePrimitiveValuesFromKey (kGroupEnd :: r) = (.ok [], r) := by
  rw [ConsumePrimitiveValuesFromKey]
  simp

theorem consume_step {t : Byte} {rest rest2 : List Byte} {v : PrimitiveValue}
    (h1 : ¬ t = kGroupEnd) (h2 : IsPrimitiveValueType t = true)
    (h3 : PrimitiveValue.DecodeKey (t :: rest) = (.ok v, rest2)) :
    ConsumePrimitiveValuesFromKey (t :: rest)
      = (match ConsumePrimitiveValuesFromKey rest2 with
         | (.ok vs, rest3) => (.ok (v :: vs), rest3)
         | (.error e, rest3) => (.error e, rest3)) := by
  rw [ConsumePrimitiveValuesFromKey]
  simp only [h1, h2, if_neg, if_pos, ite_true, ite_false, not_false_eq_true]
  split
  · rename_i v2 rest3 hd
    rw [h3] at hd
    injection hd with hd1 hd2
    injection hd1 with hd1
    subst hd1
    subst hd2
    rfl
  · rename_i e rest3 hd
    rw [h3] at hd
    injection hd with hd1 hd2
    exact absurd hd1 (by simp)

theorem consume_group (g : List PrimitiveValue) (r : List Byte) :
    ConsumePrimitiveValuesFromKey ((g.flatMap PrimitiveValue.encode ++ [kGroupEnd]) ++ r)
      = (.ok g, r) := by
  induction g with
  | nil => exact consume_groupEnd r
  | cons pv gs ih =>
    obtain ⟨t, trest, henc, hgt, -, -, -, hprim⟩ := encode_head pv
    have hne : ¬ t = kGroupEnd := by
      intro he
      rw [he] at hgt
      omega
    have hshape : (((pv :: gs).flatMap PrimitiveValue.encode ++ [kGroupEnd]) ++ r)
        = t :: (trest ++ ((gs.flatMap PrimitiveValue.encode ++ [kGroupEnd]) ++ r)) := by
      simp [henc, List.append_assoc]
    have hdec : PrimitiveValue.DecodeKey
        (t :: (trest ++ ((gs.flatMap PrimitiveValue.encode ++ [kGroupEnd]) ++ r)))
        = (.ok pv, (gs.flatMap PrimitiveValue.encode ++ [kGroupEnd]) ++ r) := by
      rw [show t :: (trest ++ ((gs.flatMap PrimitiveValue.encode ++ [kGroupEnd]) ++ r))
          = (t :: trest) ++ ((gs.flatMap PrimitiveValue.encode ++ [kGroupEnd]) ++ r) from rfl]
      rw [← henc]
      exact DecodeKey_encode pv _
    rw [hshape, consume_step hne hprim hdec, ih]

theorem consume_group_nil (g : List PrimitiveValue) :
    ConsumePrimitiveValuesFromKey (g.flatMap PrimitiveValue.encode ++ [kGroupEnd])
      = (.ok g, []) := by
  have h := consume_group g []
  simpa using h

theorem be16_roundtrip (v : Fin 65536) : (byteHi v).val * 256 + (byteLo v).val = v.val := by
  simp [byteHi, byteLo]
  omega

/-- Decoding the encoding of a hash-present key (whole-key mode). -/
theorem DoDecode_encode_true_whole {k : DocKey} (hk : k.hash_present = true) :
    DocKey.DoDecode k.Encode .WHOLE_DOC_KEY
      = (.ok ⟨true, k.hash, k.hashed_group, k.range_group⟩, []) := by
  rw [DocKey.Encode_hash_true hk]
  rw [DocKey.DoDecode.eq_def]
  simp only [show ¬ kUInt16Hash = kIntentPrefix from by decide, if_neg, ite_false, reduceIte,
    show IsPrimitiveValueType kUInt16Hash = true from by decide, Bool.true_or, not_true,
    consume_group, consume_group_nil, be16_roundtrip, Fin.eta, decide_True, Bool.not_true,
    Bool.false_eq_true]

/-- Decoding the encoding of a hash-present key (hashed-part-only
mode): exactly the range-group bytes remain. -/
theorem DoDecode_encode_true_hashed {k : DocKey} (hk : k.hash_present = true) :
    DocKey.DoDecode k.Encode .HASHED_PART_ONLY
      = (.ok ⟨true, k.hash, k.hashed_group, []⟩,
          k.range_group.flatMap PrimitiveValue.encode ++ [kGroupEnd]) := by
  rw [DocKey.Encode_hash_true hk]
  rw [DocKey.DoDecode.eq_def]
  simp only [show ¬ kUInt16Hash = kIntentPrefix from by decide, if_neg, ite_false, reduceIte,
    show IsPrimitiveValueType kUInt16Hash = true from by decide, Bool.true_or, not_true,
    consume_group, consume_group_nil, be16_roundtrip, Fin.eta, decide_True, Bool.not_true,
    Bool.false_eq_true]

/-- Decoding the encoding of a hash-absent key (whole-key mode). -/
theorem DoDecode_encode_false_whole {k : DocKey} (hk : k.hash_present = false) :
    DocKey.DoDecode k.Encode .WHOLE_DOC_KEY
      = (.ok ⟨false, ⟨0xdead, by omega⟩, [], k.range_group⟩, []) := by
  rw [DocKey.Encode_hash_false hk]
  rcases hr : k.range_group with - | ⟨pv, rest⟩
  · rw [show (([] : List PrimitiveValue).flatMap PrimitiveValue.encode ++ [kGroupEnd])
        = [kGroupEnd] from rfl]
    rw [DocKey.DoDecode.eq_def]
    simp only [show ¬ kGroupEnd = kIntentPrefix from by decide, if_neg, ite_false, reduceIte,
      show IsPrimitiveValueType kGroupEnd = false from by decide, Bool.false_or,
      show ¬ kGroupEnd = kUInt16Hash from by decide, decide_True, Bool.not_true,
      Bool.false_eq_true, consume_groupEnd, decide_eq_true_eq, not_true_eq_false]
  · cases pv with
    | PVString s =>
      rw [show ((PrimitiveValue.PVString s :: rest).flatMap PrimitiveValue.encode ++ [kGroupEnd])
          = kString :: (zeroEncode s ++ (rest.flatMap PrimitiveValue.encode ++ [kGroupEnd]))
          from by simp [PrimitiveValue.encode]]
      have hcg : ConsumePrimitiveValuesFromKey
          (kString :: (zeroEncode s ++ (rest.flatMap PrimitiveValue.encode ++ [kGroupEnd])))
          = (.ok (PrimitiveValue.PVString s :: rest), []) := by
        have h := consume_group (PrimitiveValue.PVString s :: rest) []
        simpa [PrimitiveValue.encode] using h
      rw [DocKey.DoDecode.eq_def]
      simp only [show ¬ kString = kIntentPrefix from by decide, if_neg, ite_false, reduceIte,
        show IsPrimitiveValueType kString = true from by decide, Bool.true_or, not_true,
        show ¬ kString = kUInt16Hash from by decide, decide_True, Bool.not_true,
        Bool.false_eq_true, hcg, decide_eq_true_eq, not_true_eq_false]

/-- Decoding the encoding of a hash-absent key (hashed-part-only mode)
consumes nothing. -/
theorem DoDecode_encode_false_hashed {k : DocKey} (hk : k.hash_present = false) :
    DocKey.DoDecode k.Encode .HASHED_PART_ONLY
      = (.ok ⟨false, ⟨0xdead, by omega⟩, [], []⟩, k.Encode) := by
  rw [DocKey.Encode_hash_false hk]
  rcases hr : k.range_group with - | ⟨pv, rest⟩
  · rw [show (([] : List PrimitiveValue).flatMap PrimitiveValue.encode ++ [kGroupEnd])
        = [kGroupEnd] from rfl]
    rw [DocKey.DoDecode.eq_def]
    simp only [show ¬ kGroupEnd = kIntentPrefix from by decide, if_neg, ite_false, reduceIte,
      show IsPrimitiveValueType kGroupEnd = false from by decide, Bool.false_or,
      show ¬ kGroupEnd = kUInt16Hash from by decide, decide_True, Bool.not_true,
      Bool.false_eq_true, decide_eq_true_eq, not_true_eq_false]
  · cases pv with
    | PVString s =>
      rw [show ((PrimitiveValue.PVString s :: rest).flatMap PrimitiveValue.encode ++ [kGroupEnd])
          = kString :: (zeroEncode s ++ (rest.flatMap PrimitiveValue.encode ++ [kGroupEnd]))
          from by simp [PrimitiveValue.encode]]
      rw [DocKey.DoDecode.eq_def]
      simp only [show ¬ kString = kIntentPrefix from by decide, if_neg, ite_false, reduceIte,
        show IsPrimitiveValueType kString = true from by decide, Bool.true_or, not_true,
        show ¬ kString = kUInt16Hash from by decide, decide_True, Bool.not_true,
        Bool.false_eq_true, decide_eq_true_eq, not_true_eq_false]

/-! ### Claim theorems -/

/-- Example keys used by the claim witnesses. -/
def exHashedA : DocKey :=
  ⟨true, 0x1234, [.PVString [0x61, 0x61], .PVString [0x62, 0x62]],
    [.PVString [0x63, 0x63], .PVString [0x64, 0x64]]⟩

def exHashedB : DocKey :=
  ⟨true, 0x1234, [.PVString [0x61, 0x61], .PVString [0x62, 0x62]],
    [.PVString [0x63, 0x63], .PVString [0x64, 0x65]]⟩

def exRangeOnly : DocKey := ⟨false, 0, [], [.PVString [0x63]]⟩

/-- C1 (counterexample to the claim as stated): two DocKeys with equal
`hash_present = false` whose hashed groups differ compare as unequal in
memory while their encodings are byte-identical — `Encode` drops the
hashed group when the hash is absent but `CompareTo` still compares
it. -/
theorem claim_C1_counterexample :
    (DocKey.mk false 0 [.PVString []] []).hash_present
        = (DocKey.mk false 0 [] []).hash_present ∧
      DocKey.CompareTo (DocKey.mk false 0 [.PVString []] []) (DocKey.mk false 0 [] [])
        = .gt ∧
      byteListCompare (DocKey.mk false 0 [.PVString []] []).Encode
          (DocKey.mk false 0 [] []).Encode = .eq := by
  decide

/-- C1 (amended): for DocKeys with equal `hash_present` — and, when the
hash is absent, equal hashed groups (all public constructors leave the
hashed group empty in that case) — the sign of `CompareTo` (hash
ascending, then hashed group element-wise, then range group
element-wise) equals the sign of the lexicographic byte comparison of
the encodings; the primitive codec's encoding is order-preserving by
`encode_cmp`. -/
theorem claim_C1_order_preservation (k1 k2 : DocKey)
    (hp : k1.hash_present = k2.hash_present)
    (hg : k1.hash_present = false → k1.hashed_group = k2.hashed_group) :
    byteListCompare k1.Encode k2.Encode = k1.CompareTo k2 := by
  cases hk : k1.hash_present with
  | false =>
    have hk2 : k2.hash_present = false := by rw [← hp, hk]
    rw [DocKey.Encode_hash_false hk, DocKey.Encode_hash_false hk2,
      DocKey.CompareTo_then_false k2 hk, hg hk, compareVectors_self]
    simp only [ordEq_then]
    exact group_cmp_closed k1.range_group k2.range_group
  | true =>
    have hk2 : k2.hash_present = true := by rw [← hp, hk]
    rw [DocKey.Encode_hash_true hk, DocKey.Encode_hash_true hk2,
      DocKey.CompareTo_then_true k2 hk]
    simp only [byteListCompare_cons]
    rw [show compare kUInt16Hash.val kUInt16Hash.val = Ordering.eq from by decide]
    simp only [ordEq_then]
    rw [group_cmp, group_cmp_closed]
    exact be16_cmp k1.hash k2.hash _

/-- C1 witness: the amended order-preservation theorem applied to two
concrete hash-present keys. -/
theorem claim_C1_witness :
    byteListCompare exHashedA.Encode exHashedB.Encode = exHashedA.CompareTo exHashedB :=
  claim_C1_order_preservation exHashedA exHashedB (by decide) (by decide)

/-- C6: `Encode` produces exactly — when the hash is present — the
`UInt16Hash` tag, the two big-endian hash bytes, each hashed item's
primitive encoding in order and `GroupEnd`, then in all cases each range
item's primitive encoding in order followed by `GroupEnd`, and nothing
else. -/
theorem claim_C6_encode_layout (k : DocKey) :
    k.Encode = (if k.hash_present then
        [kUInt16Hash, byteHi k.hash, byteLo k.hash] ++
          k.hashed_group.flatMap PrimitiveValue.encode ++ [kGroupEnd]
      else []) ++ k.range_group.flatMap PrimitiveValue.encode ++ [kGroupEnd] := by
  rw [DocKey.Encode_eq]
  cases k.hash_present <;> simp

/-- C2: for every DocKey `k`, `FullyDecodeFrom (Encode k)` succeeds,
consumes exactly all bytes (the whole-key decode leaves an empty
remainder), and produces a DocKey equal to `k` per `operator==`. -/
theorem claim_C2_roundtrip (k : DocKey) :
    ∃ k2, DocKey.FullyDecodeFrom k.Encode = .ok k2 ∧ DocKey.keyEq k2 k = true ∧
      (DocKey.DoDecode k.Encode .WHOLE_DOC_KEY).2 = [] := by
  cases hk : k.hash_present
  · refine ⟨⟨false, ⟨0xdead, by omega⟩, [], k.range_group⟩, ?_, ?_, ?_⟩
    · unfold DocKey.FullyDecodeFrom DocKey.DecodeFrom
      rw [DoDecode_encode_false_whole hk]
      simp
    · simp [DocKey.keyEq, DocKey.HashedComponentsEqual, hk]
    · rw [DoDecode_encode_false_whole hk]
  · refine ⟨⟨true, k.hash, k.hashed_group, k.range_group⟩, ?_, ?_, ?_⟩
    · unfold DocKey.FullyDecodeFrom DocKey.DecodeFrom
      rw [DoDecode_encode_true_whole hk]
      simp
    · simp [DocKey.keyEq, DocKey.HashedComponentsEqual, hk]
    · rw [DoDecode_encode_true_whole hk]

theorem take_sub_length (p r : List Byte) :
    (p ++ r).take ((p ++ r).length - r.length) = p := by
  have h : (p ++ r).length - r.length = p.length := by simp
  rw [h, List.take_left]

theorem transform_of_size {key : List Byte} {n : Nat}
    (h : DocKey.EncodedSize key .HASHED_PART_ONLY = .ok n) :
    HashedComponentsExtractorTransform key = some (key.take n) := by
  unfold HashedComponentsExtractorTransform
  rw [h]

/-- The encoded hashed-component prefix of a hash-present key. -/
theorem transform_encode_true {k : DocKey} (hk : k.hash_present = true) :
    HashedComponentsExtractorTransform k.Encode
      = some (kUInt16Hash :: byteHi k.hash :: byteLo k.hash ::
          (k.hashed_group.flatMap PrimitiveValue.encode ++ [kGroupEnd])) := by
  have hsize : DocKey.EncodedSize k.Encode .HASHED_PART_ONLY
      = .ok (k.Encode.length
          - (k.range_group.flatMap PrimitiveValue.encode ++ [kGroupEnd]).length) := by
    unfold DocKey.EncodedSize
    rw [DoDecode_encode_true_hashed hk]
  have hshape : k.Encode = (kUInt16Hash :: byteHi k.hash :: byteLo k.hash ::
      (k.hashed_group.flatMap PrimitiveValue.encode ++ [kGroupEnd]))
      ++ (k.range_group.flatMap PrimitiveValue.encode ++ [kGroupEnd]) := by
    rw [DocKey.Encode_hash_true hk]
    simp
  rw [transform_of_size hsize, hshape, take_sub_length]

/-- C9: two encoded DocKeys with identical hash and hashed group (range
groups arbitrary, in particular different) project to the identical
filter key, namely the encoded hashed-component prefix (hash tag +
2-byte hash + hashed components + `GroupEnd`) of length
`EncodedSize(key, HASHED_PART_ONLY)`. -/
theorem claim_C9_bloom_projection (k1 k2 : DocKey)
    (h1 : k1.hash_present = true) (h2 : k2.hash_present = true)
    (hh : k1.hash = k2.hash) (hg : k1.hashed_group = k2.hashed_group) :
    HashedComponentsExtractorTransform k1.Encode
        = HashedComponentsExtractorTransform k2.Encode ∧
      HashedComponentsExtractorTransform k1.Encode
        = some (kUInt16Hash :: byteHi k1.hash :: byteLo k1.hash ::
            (k1.hashed_group.flatMap PrimitiveValue.encode ++ [kGroupEnd])) := by
  refine ⟨?_, transform_encode_true h1⟩
  rw [transform_encode_true h1, transform_encode_true h2, hh, hg]

/-- C9 witness: the projection theorem applied to two concrete keys
sharing hash and hashed group but differing in range group. -/
theorem claim_C9_witness :
    HashedComponentsExtractorTransform exHashedA.Encode
        = HashedComponentsExtractorTransform exHashedB.Encode ∧
      HashedComponentsExtractorTransform exHashedA.Encode
        = some (kUInt16Hash :: byteHi exHashedA.hash :: byteLo exHashedA.hash ::
            (exHashedA.hashed_group.flatMap PrimitiveValue.encode ++ [kGroupEnd])) :=
  claim_C9_bloom_projection exHashedA exHashedB (by decide) (by decide) (by decide) (by decide)

/-- Stripping one leading `IntentPrefix` byte: decoding continues on the
remainder exactly as a direct decode of the remainder does when the
remainder does not itself start with another `IntentPrefix` byte. -/
theorem DoDecode_intent (first : Byte) (rest1 : List Byte) (part : DocKeyPart)
    (h : ¬ first = kIntentPrefix) :
    DocKey.DoDecode (kIntentPrefix :: first :: rest1) part
      = DocKey.DoDecode (first :: rest1) part := by
  conv_lhs => rw [DocKey.DoDecode.eq_def]
  conv_rhs => rw [DocKey.DoDecode.eq_def]
  simp [h]

/-- C10: a hash-absent encoded DocKey (whose first tag is then the first
range component's primitive tag or `GroupEnd`, never `UInt16Hash`)
consumes zero bytes under hashed-part-only decoding — one byte if a
leading `IntentPrefix` byte is prepended — so every such key projects to
the same empty filter key. -/
theorem claim_C10_hash_absent_projection (k : DocKey) (hk : k.hash_present = false) :
    DocKey.EncodedSize k.Encode .HASHED_PART_ONLY = .ok 0 ∧
      HashedComponentsExtractorTransform k.Encode = some [] ∧
      DocKey.EncodedSize (kIntentPrefix :: k.Encode) .HASHED_PART_ONLY = .ok 1 := by
  have hsize : DocKey.EncodedSize k.Encode .HASHED_PART_ONLY = .ok 0 := by
    unfold DocKey.EncodedSize
    rw [DoDecode_encode_false_hashed hk]
    simp
  refine ⟨hsize, ?_, ?_⟩
  · unfold HashedComponentsExtractorTransform
    rw [hsize]
    simp
  · have hfr : ∃ first rest1, k.Encode = first :: rest1 ∧ ¬ first = kIntentPrefix := by
      rw [DocKey.Encode_hash_false hk]
      rcases k.range_group with - | ⟨⟨s⟩, rest⟩
      · exact ⟨kGroupEnd, [], rfl, by decide⟩
      · exact ⟨kString, zeroEncode s ++ (rest.flatMap PrimitiveValue.encode ++ [kGroupEnd]),
          by simp [PrimitiveValue.encode], by decide⟩
    obtain ⟨first, rest1, hE, hni⟩ := hfr
    have hip : DocKey.DoDecode (kIntentPrefix :: k.Encode) .HASHED_PART_ONLY
        = (.ok ⟨false, ⟨0xdead, by omega⟩, [], []⟩, k.Encode) := by
      rw [hE, DoDecode_intent first rest1 _ hni, ← hE, DoDecode_encode_false_hashed hk]
    unfold DocKey.EncodedSize
    rw [hip]
    simp only [List.length_cons]
    congr 1
    omega

/-- C10 witness: the hash-absent projection theorem applied to a
concrete range-only key. -/
theorem claim_C10_witness :
    DocKey.EncodedSize exRangeOnly.Encode .HASHED_PART_ONLY = .ok 0 ∧
      HashedComponentsExtractorTransform exRangeOnly.Encode = some [] ∧
      DocKey.EncodedSize (kIntentPrefix :: exRangeOnly.Encode) .HASHED_PART_ONLY = .ok 1 :=
  claim_C10_hash_absent_projection exRangeOnly (by decide)

theorem byteListCompare_append_left (p x y : List Byte) :
    byteListCompare (p ++ x) (p ++ y) = byteListCompare x y := by
  induction p with
  | nil => rfl
  | cons a as ih => simp [byteListCompare_cons, Nat.compare_eq_eq.mpr rfl, ih]

theorem DocKey.CompareTo_self (k : DocKey) : k.CompareTo k = .eq := by
  rw [DocKey.CompareTo_then]
  cases k.hash_present <;> simp [Nat.compare_eq_eq.mpr rfl, compareVectors_self]

/-- Example sub-document keys used by the claim witnesses. -/
def exSubA : SubDocKey := ⟨exHashedA, [.PVString [0x70]], some 10⟩

def exSubB : SubDocKey := ⟨exHashedA, [.PVString [0x70]], some 5⟩

def exSubNested : SubDocKey := ⟨exHashedA, [.PVString [0x70], .PVString [0x71]], some 7⟩

/-- C3: for SubDocKeys with equal doc key and subkeys, a larger (more
recent) hybrid time sorts before a smaller one: `CompareTo` negates the
hybrid-time comparison. -/
theorem claim_C3_hybrid_time_reversal (a b : SubDocKey) (ta tb : Nat)
    (hd : a.doc_key = b.doc_key) (hs : a.subkeys = b.subkeys)
    (hta : a.doc_ht = some ta) (htb : b.doc_ht = some tb) (hgt : tb < ta) :
    a.CompareTo b = .lt := by
  unfold SubDocKey.CompareTo SubDocKey.CompareToIgnoreHt
  rw [hd, hs, DocKey.CompareTo_self, compareVectors_self, hta, htb]
  simp [DocHybridTime.cmp, Nat.compare_eq_gt.mpr hgt, Ordering.swap]

/-- C3 witness: reversal at two concrete keys with hybrid times 10 and
5. -/
theorem claim_C3_witness : exSubA.CompareTo exSubB = .lt :=
  claim_C3_hybrid_time_reversal exSubA exSubB 10 5 rfl rfl rfl rfl (by omega)

/-- `MaxByte` dominates any byte string starting with a smaller byte. -/
theorem maxByte_cmp_head {c : Byte} (X : List Byte) (h : c.val < kMaxByte.val) :
    byteListCompare [kMaxByte] (c :: X) = .gt := by
  rw [byteListCompare_cons, Nat.compare_eq_gt.mpr h]
  rfl

theorem SubDocKey.Encode_false_eq (k : SubDocKey) :
    k.Encode false = k.doc_key.Encode ++ k.subkeys.flatMap PrimitiveValue.encode := by
  unfold SubDocKey.Encode
  cases k.doc_ht <;> simp

/-- C4: `AdvanceOutOfSubDoc` is the hybrid-time-free encoding followed
by the `MaxByte` tag, and it byte-compares strictly greater than the
encoding of every SubDocKey that equals `k` or is nested under it (same
doc key, subkeys extended by any suffix, any hybrid time). -/
theorem claim_C4_advance_sentinel (k m : SubDocKey) (ext : List PrimitiveValue)
    (hd : m.doc_key = k.doc_key) (hs : m.subkeys = k.subkeys ++ ext) :
    k.AdvanceOutOfSubDoc = k.Encode false ++ [kMaxByte] ∧
      byteListCompare k.AdvanceOutOfSubDoc (m.Encode true) = .gt := by
  refine ⟨rfl, ?_⟩
  unfold SubDocKey.AdvanceOutOfSubDoc
  rw [SubDocKey.Encode_false_eq]
  unfold SubDocKey.Encode
  rw [hd, hs, List.flatMap_append]
  simp only [List.append_assoc]
  rw [byteListCompare_append_left, byteListCompare_append_left]
  rcases ext with - | ⟨⟨s⟩, rest⟩
  · rcases hmt : m.doc_ht with - | t
    · rfl
    · exact maxByte_cmp_head _ (by decide)
  · exact maxByte_cmp_head _ (by decide)

/-- C4 witness: the sentinel dominates a concrete nested key. -/
theorem claim_C4_witness :
    exSubA.AdvanceOutOfSubDoc = exSubA.Encode false ++ [kMaxByte] ∧
      byteListCompare exSubA.AdvanceOutOfSubDoc (exSubNested.Encode true) = .gt :=
  claim_C4_advance_sentinel exSubA exSubNested [.PVString [0x71]] rfl rfl

theorem docHt_isSome_false (o : DocHybridTime) : o.isSome = false ↔ o = none := by
  cases o <;> simp

theorem leadingRun_iff (p : List PrimitiveValue) :
    ∀ s : List PrimitiveValue, leadingRun p s = true ↔ p <+: s := by
  induction p with
  | nil =>
    intro s
    simp [leadingRun]
  | cons a as ih =>
    intro s
    cases s with
    | nil => simp [leadingRun]
    | cons b bs => simp [leadingRun, ih, List.cons_prefix_cons]

/-- C5: `StartsWith(prefix)` holds exactly when the doc keys are equal
(per `operator==`), the prefix has no hybrid time or (equal hybrid times
and equal subkey counts), the prefix has at most as many subkeys, and
the prefix's subkeys are a literal leading run of this key's subkeys; in
particular a differing doc key always yields false. -/
theorem claim_C5_starts_with (self p : SubDocKey) :
    self.StartsWith p = true ↔
      (self.doc_key.keyEq p.doc_key = true ∧
        (p.doc_ht = none ∨ (self.doc_ht = p.doc_ht ∧ p.subkeys.length = self.subkeys.length)) ∧
        p.subkeys.length ≤ self.subkeys.length ∧
        p.subkeys <+: self.subkeys) := by
  unfold SubDocKey.StartsWith SubDocKey.has_hybrid_time
  simp only [Bool.and_eq_true, Bool.or_eq_true, Bool.not_eq_true', decide_eq_true_eq,
    beq_iff_eq, leadingRun_iff, docHt_isSome_false]
  tauto

/-- C7 (the code evaluated at the failing input): on a one-byte slice
holding only the `IntentPrefix` byte, `DoDecode` consumes the prefix and
then dereferences the now-empty cursor — a read past the end of the
buffer rather than the Corruption status the spec prescribes for
premature end of input; the empty slice itself does produce the
"Document key is empty" Corruption error. -/
theorem claim_C7_intent_prefix_over_read :
    DocKey.DoDecode [kIntentPrefix] .WHOLE_DOC_KEY
        = (.error ⟨.UndefinedBehaviorRead, "Read past the end of the document key buffer"⟩, [])
      ∧ DocKey.DoDecode [] .WHOLE_DOC_KEY
        = (.error ⟨.Corruption, "Document key is empty"⟩, []) :=
  ⟨rfl, rfl⟩

/-- Every `PrimitiveValue.DecodeKey` failure is a Corruption status. -/
theorem DecodeKey_no_invalid {l r : List Byte} {e : DecodeError}
    (h : PrimitiveValue.DecodeKey l = (.error e, r)) : e.code = .Corruption := by
  match l with
  | [] =>
    rw [PrimitiveValue.DecodeKey] at h
    injection h with h1 h2
    injection h1 with h1
    subst h1
    rfl
  | t :: rest =>
    rw [PrimitiveValue.DecodeKey.eq_def] at h
    repeat' split at h
    all_goals
      first
        | (injection h with h1 h2
           injection h1 with h1
           subst h1
           rfl)
        | (injection h with h1 h2
           injection h1)

/-- `ConsumePrimitiveValuesFromKey` failing with a `DecodeKey` error
propagates that error. -/
theorem consume_step_err {t : Byte} {rest rest2 : List Byte} {e : DecodeError}
    (h1 : ¬ t = kGroupEnd) (h2 : IsPrimitiveValueType t = true)
    (h3 : PrimitiveValue.DecodeKey (t :: rest) = (.error e, rest2)) :
    ConsumePrimitiveValuesFromKey (t :: rest) = (.error e, rest2) := by
  rw [ConsumePrimitiveValuesFromKey]
  simp only [h1, h2, if_neg, if_pos, ite_true, ite_false, not_false_eq_true]
  split
  · rename_i v2 rest3 hd
    rw [h3] at hd
    injection hd with hd1 hd2
    exact absurd hd1 (by simp)
  · rename_i e2 rest3 hd
    rw [h3] at hd
    injection hd with hd1 hd2
    injection hd1 with hd1
    subst hd1
    subst hd2
    rfl

/-- Every `ConsumePrimitiveValuesFromKey` failure is a Corruption
status. -/
theorem consume_no_invalid {l : List Byte} :
    ∀ {e : DecodeError} {r : List Byte},
      ConsumePrimitiveValuesFromKey l = (.error e, r) → e.code = .Corruption := by
  induction l using ConsumePrimitiveValuesFromKey.induct with
  | case1 =>
    intro e r h
    rw [ConsumePrimitiveValuesFromKey] at h
    injection h with h1 h2
    injection h1 with h1
    subst h1
    rfl
  | case2 rest =>
    intro e r h
    rw [consume_groupEnd] at h
    simp at h
  | case3 b rest hne hprim v rest2 hdec vs rest3 hcons hlen ih =>
    intro e r h
    rw [consume_step hne hprim hdec, hcons] at h
    simp at h
  | case4 b rest hne hprim v rest2 hdec e2 rest3 hcons hlen ih =>
    intro e r h
    rw [consume_step hne hprim hdec, hcons] at h
    injection h with h1 h2
    injection h1 with h1
    subst h1
    exact ih hcons
  | case5 b rest hne hprim e2 rest2 hdec =>
    intro e r h
    rw [consume_step_err hne hprim hdec] at h
    injection h with h1 h2
    injection h1 with h1
    subst h1
    exact DecodeKey_no_invalid hdec
  | case6 b rest hne hprim =>
    intro e r h
    rw [ConsumePrimitiveValuesFromKey] at h
    simp only [hne, hprim, if_neg, ite_false, reduceIte, Bool.false_eq_true,
      not_false_eq_true] at h
    injection h with h1 h2
    injection h1 with h1
    subst h1
    rfl

/-- Every `DocKey::DoDecode` failure is a Corruption status (or the
embedding's marker for a buffer over-read) — never InvalidArgument. -/
theorem DoDecode_no_invalid {slice : List Byte} {part : DocKeyPart} {e : DecodeError}
    {rest : List Byte} (h : DocKey.DoDecode slice part = (.error e, rest)) :
    e.code ≠ ErrorCode.InvalidArgument := by
  have hlit : ∀ (c : ErrorCode) (msg : String) (r2 : List Byte),
      ((.error ⟨c, msg⟩, r2) : Except DecodeError DocKey × List Byte) = (.error e, rest) →
        c ≠ ErrorCode.InvalidArgument → e.code ≠ ErrorCode.InvalidArgument := by
    intro c msg r2 hh hc
    injection hh with h1 h2
    injection h1 with h1
    rw [← h1]
    exact hc
  rcases slice with - | ⟨b0, rest0⟩
  · rw [DocKey.DoDecode.eq_def] at h
    apply hlit _ _ _ h
    simp
  · rw [DocKey.DoDecode.eq_def] at h
    repeat' split at h
    all_goals
      try first
        | (apply hlit _ _ _ h
           simp)
        | (injection h with h1 h2
           injection h1)
    all_goals rename_i heq
    all_goals rw [consume_no_invalid heq]
    all_goals exact fun hh => ErrorCode.noConfusion hh

/-- C8 (counterexample to the claim as stated): on the one-byte slice
`[kMaxByte]` the underlying decode fails with a Corruption status and
leaves the byte unconsumed, yet `FullyDecodeFrom` reports
InvalidArgument — the trailing-bytes check runs before the decode status
is returned, so the corruption error does not propagate. -/
theorem claim_C8_counterexample :
    (DocKey.DecodeFrom [kMaxByte]).1
        = .error ⟨.Corruption, "Expected first value type to be primitive or GroupEnd"⟩ ∧
      (DocKey.DecodeFrom [kMaxByte]).2 = [kMaxByte] ∧
      DocKey.FullyDecodeFrom [kMaxByte]
        = .error ⟨.InvalidArgument, "Expected all bytes of the slice to be decoded into DocKey"⟩ :=
  ⟨rfl, rfl, rfl⟩

/-- C8 (amended): `FullyDecodeFrom` raises InvalidArgument exactly when
the underlying decode — whether it succeeded or failed — leaves trailing
undecoded bytes; when the decode consumes the whole slice its own status
(success or Corruption) is what propagates to the caller. -/
theorem claim_C8_error_taxonomy (slice : List Byte) :
    ((DocKey.DoDecode slice .WHOLE_DOC_KEY).2 = [] →
        DocKey.FullyDecodeFrom slice = (DocKey.DoDecode slice .WHOLE_DOC_KEY).1) ∧
      ((∃ msg, DocKey.FullyDecodeFrom slice = .error ⟨.InvalidArgument, msg⟩)
        ↔ (DocKey.DoDecode slice .WHOLE_DOC_KEY).2 ≠ []) := by
  have hfull : DocKey.FullyDecodeFrom slice
      = (if (DocKey.DoDecode slice .WHOLE_DOC_KEY).2 ≠ [] then
          .error ⟨.InvalidArgument, "Expected all bytes of the slice to be decoded into DocKey"⟩
        else (DocKey.DoDecode slice .WHOLE_DOC_KEY).1) := by
    unfold DocKey.FullyDecodeFrom DocKey.DecodeFrom
    rcases DocKey.DoDecode slice .WHOLE_DOC_KEY with ⟨st, r⟩
    rfl
  constructor
  · intro hempty
    rw [hfull, if_neg (by simp [hempty])]
  · constructor
    · rintro ⟨msg, hmsg⟩
      intro hempty
      rw [hfull, if_neg (by simp [hempty])] at hmsg
      rcases hst : (DocKey.DoDecode slice .WHOLE_DOC_KEY).1 with e2 | k2
      · rw [hst] at hmsg
        injection hmsg with h1
        have hdo : DocKey.DoDecode slice .WHOLE_DOC_KEY
            = (.error e2, (DocKey.DoDecode slice .WHOLE_DOC_KEY).2) := by
          rw [← hst]
        have := DoDecode_no_invalid hdo
        rw [h1] at this
        exact this rfl
      · rw [hst] at hmsg
        exact Except.noConfusion hmsg
    · intro hne
      exact ⟨_, by rw [hfull, if_pos hne]⟩

/-- C8 witness: on the empty slice the decode consumes everything and
its Corruption status propagates unchanged through `FullyDecodeFrom`. -/
theorem claim_C8_witness :
    DocKey.FullyDecodeFrom [] = (DocKey.DoDecode [] .WHOLE_DOC_KEY).1 :=
  (claim_C8_error_taxonomy []).1 rfl

end DocDb
